import Mathlib

/-!
Shallow embedding of the Quake 3 log parser (src/main.py).

The parser reads a log file line by line.  Each line is stripped; empty
lines are skipped; a line containing the substring "InitGame:" starts a
new game; otherwise the kill regex

  ^\s*\d+:\d+\s+Kill:\s+(\d+)\s+(\d+)\s+(\d+):\s+(.+?)\s+killed\s+(.+?)\s+by\s+(MOD_\w+)

is matched (Python re.match, anchored at the start only) and a matched
line is processed as a kill event.  Character classes are modelled at the
ASCII level (the logs and all tests are ASCII).  The backtracking order of
the Python regex engine is reproduced: greedy pieces try the longest
consumption first, the lazy groups (.+?) the shortest, and the rightmost
choice point is varied first.
-/

/-- ASCII model of the regex class \s (Python whitespace). -/
def isSpaceChar (c : Char) : Bool :=
  c = ' ' || c = '\t' || c = '\n' || c = '\r' || c = '\x0b' || c = '\x0c'

/-- ASCII model of the regex class \d. -/
def isDigitChar (c : Char) : Bool :=
  '0' ≤ c && c ≤ '9'

/-- ASCII model of the regex class \w. -/
def isWordChar (c : Char) : Bool :=
  c.isAlpha || isDigitChar c || c = '_'

/-- Python str.strip(): drop leading and trailing whitespace. -/
def trimChars (s : List Char) : List Char :=
  ((s.dropWhile isSpaceChar).reverse.dropWhile isSpaceChar).reverse

/-- Does the text start with the given needle? -/
def startsWithChars : List Char → List Char → Bool
  | [], _ => true
  | _ :: _, [] => false
  | c :: cs, d :: ds => c = d && startsWithChars cs ds

/-- Substring search, modelling re.search of a literal pattern. -/
def hasSubstr (needle : List Char) : List Char → Bool
  | [] => startsWithChars needle []
  | c :: t => startsWithChars needle (c :: t) || hasSubstr needle t

/-- Consume a maximal nonempty run of characters in a class (greedy +
followed by a disjoint class, hence deterministic). -/
def expectRun1 (p : Char → Bool) (s : List Char) : Option (List Char × List Char) :=
  let r := s.takeWhile p
  if r.isEmpty then none else some (r, s.dropWhile p)

/-- Consume a literal. -/
def expectLit : List Char → List Char → Option (List Char)
  | [], s => some s
  | _ :: _, [] => none
  | c :: cs, d :: ds => if c = d then expectLit cs ds else none

/-- Try the continuation after dropping n, n-1, ..., 1 characters
(backtracking order of a greedy +). -/
def tryDrops (k : List Char → Option α) (s : List Char) : Nat → Option α
  | 0 => none
  | Nat.succ i =>
    match k (s.drop (i + 1)) with
    | some r => some r
    | none => tryDrops k s i

/-- Greedy \s+ with full backtracking: longest whitespace run first. -/
def wsGreedy (s : List Char) (k : List Char → Option α) : Option α :=
  tryDrops k s (s.takeWhile isSpaceChar).length

/-- Lazy (.+?): the capture grows from one character up, and the dot does not
match a newline. -/
def dotLazy (acc : List Char) (s : List Char) (k : List Char → List Char → Option α) :
    Option α :=
  match s with
  | [] => none
  | c :: rest =>
    if c = '\n' then none
    else
      match k (acc ++ [c]) rest with
      | some r => some r
      | none => dotLazy (acc ++ [c]) rest k

/-- A parsed kill event: groups 4, 5, 6 of the kill regex, stripped, as the
source binds them (killer_name, victim_name, weapon). -/
structure KillEvent where
  killer_name : String
  victim_name : String
  weapon : String
deriving DecidableEq, Repr

/-- The six captures of the kill regex (groups 1-3 are bound by the source
as killer_id, victim_id, weapon_id but never used downstream). -/
structure KillRaw where
  killer_id : List Char
  victim_id : List Char
  weapon_id : List Char
  killer_name : List Char
  victim_name : List Char
  weapon : List Char
deriving DecidableEq, Repr

/-- Matcher for the regex tail \s+(.+?)\s+killed\s+(.+?)\s+by\s+(MOD_\w+),
with the backtracking order of the engine. -/
def matchKillTail (s : List Char) : Option (List Char × List Char × List Char) :=
  wsGreedy s (fun s1 =>
    dotLazy [] s1 (fun g4 s2 =>
      wsGreedy s2 (fun s3 =>
        match expectLit "killed".data s3 with
        | none => none
        | some s4 =>
          wsGreedy s4 (fun s5 =>
            dotLazy [] s5 (fun g5 s6 =>
              wsGreedy s6 (fun s7 =>
                match expectLit "by".data s7 with
                | none => none
                | some s8 =>
                  wsGreedy s8 (fun s9 =>
                    match expectLit "MOD_".data s9 with
                    | none => none
                    | some s10 =>
                      match expectRun1 isWordChar s10 with
                      | none => none
                      | some (w, _) => some (g4, g5, "MOD_".data ++ w))))))))

/-- Full kill regex: the head up to the third numeric id and its colon is
deterministic (every greedy piece is followed by a disjoint class or
literal), the tail backtracks. -/
def matchKill (s : List Char) : Option KillRaw := do
  let s := s.dropWhile isSpaceChar
  let (_, s) ← expectRun1 isDigitChar s
  let s ← expectLit [':'] s
  let (_, s) ← expectRun1 isDigitChar s
  let (_, s) ← expectRun1 isSpaceChar s
  let s ← expectLit "Kill:".data s
  let (_, s) ← expectRun1 isSpaceChar s
  let (g1, s) ← expectRun1 isDigitChar s
  let (_, s) ← expectRun1 isSpaceChar s
  let (g2, s) ← expectRun1 isDigitChar s
  let (_, s) ← expectRun1 isSpaceChar s
  let (g3, s) ← expectRun1 isDigitChar s
  let s ← expectLit [':'] s
  let (g4, g5, g6) ← matchKillTail s
  pure ⟨g1, g2, g3, g4, g5, g6⟩

/-- Result of classifying one raw line, as the parse loop does. -/
inductive LineResult where
  | noEvent : LineResult
  | matchStart : LineResult
  | killEvent : KillEvent → LineResult
deriving DecidableEq, Repr

/-- One iteration of the loop body of parse_log_file: strip the line, skip
it when empty, check init_game_pattern.search first, then try
kill_pattern.match; the names and the weapon are stripped as in
_process_kill_event. -/
def classifyLine (line : String) : LineResult :=
  let l := trimChars line.data
  if l = [] then .noEvent
  else if hasSubstr "InitGame:".data l then .matchStart
  else
    match matchKill l with
    | some raw =>
        .killEvent ⟨String.mk (trimChars raw.killer_name),
                    String.mk (trimChars raw.victim_name),
                    String.mk (trimChars raw.weapon)⟩
    | none => .noEvent

/-- Whether the loop treats a raw line as a kill-event line. -/
def isKillLine (line : String) : Bool :=
  match classifyLine line with
  | .killEvent _ => true
  | _ => false

/-- Per-game statistics: the dict literal built by _start_new_game.  The
kills field models the defaultdict(int) as an insertion-ordered
association list. -/
structure Game where
  total_kills : Nat
  players : List String
  kills : List (String × Int)
deriving DecidableEq, Repr

/-- The fresh game dict of _start_new_game. -/
def Game.init : Game := ⟨0, [], []⟩

/-- defaultdict(int) read-modify-write: kills[k] += d creates the entry at
0 first if absent (appended at the end, as Python dicts insert). -/
def dincr (m : List (String × Int)) (k : String) (d : Int) : List (String × Int) :=
  match m with
  | [] => [(k, d)]
  | (k', v) :: rest => if k' = k then (k', v + d) :: rest else (k', v) :: dincr rest k d

/-- Dictionary lookup in the kills association list. -/
def lookupScore (m : List (String × Int)) (k : String) : Option Int :=
  match m with
  | [] => none
  | (k', v) :: rest => if k' = k then some v else lookupScore rest k

/-- Insert into a strictly sorted list, skipping duplicates. -/
def insertSorted (x : String) : List String → List String
  | [] => [x]
  | y :: ys => if x < y then x :: y :: ys else if x = y then y :: ys else y :: insertSorted x ys

/-- sorted(list(set(l))): the strictly sorted duplicate-free enumeration of
the elements of l (Python sorts strings by code point, as Lean does). -/
def sortDedup (l : List String) : List String :=
  l.foldr insertSorted []

/-- The players contributed by one kill event: killer and victim, each
unless it is the sentinel <world>. -/
def evNames (ev : KillEvent) : List String :=
  (if ev.killer_name ≠ "<world>" then [ev.killer_name] else []) ++
  (if ev.victim_name ≠ "<world>" then [ev.victim_name] else [])

/-- The mutation _process_kill_event performs on the current game:
increment total_kills, update the kills defaultdict (world kills penalize
the victim, otherwise credit the killer), and refresh the sorted players
list from the union with the event's non-world names. -/
def applyKill (g : Game) (ev : KillEvent) : Game :=
  { total_kills := g.total_kills + 1
    kills :=
      if ev.killer_name = "<world>" then
        if ev.victim_name ≠ "<world>" then dincr g.kills ev.victim_name (-1) else g.kills
      else dincr g.kills ev.killer_name 1
    players := sortDedup (g.players ++ evNames ev) }

/-- The mutable state of a QuakeLogParser instance. -/
structure QuakeLogParser where
  games : List (String × Game)
  current_game_id : Option String
  game_counter : Nat
deriving DecidableEq, Repr

/-- The state set by __init__ (and by the reset at the top of
parse_log_file). -/
def QuakeLogParser.init : QuakeLogParser := ⟨[], none, 0⟩

/-- The id string f"game_\x7bn\x7d". -/
def gameKey (n : Nat) : String := "game_" ++ toString n

/-- Dictionary lookup in the games map. -/
def lookupGame : List (String × Game) → String → Option Game
  | [], _ => none
  | (k, v) :: rest, gid => if k = gid then some v else lookupGame rest gid

/-- Dictionary write games[gid] = g: overwrite in place, or append a fresh
key at the end (Python dict insertion order). -/
def setGame : List (String × Game) → String → Game → List (String × Game)
  | [], gid, g => [(gid, g)]
  | (k, v) :: rest, gid, g =>
    if k = gid then (k, g) :: rest else (k, v) :: setGame rest gid g

/-- _start_new_game: bump the counter, make its key current, bind a fresh
game dict under it. -/
def startNewGame (st : QuakeLogParser) : QuakeLogParser :=
  { games := st.games ++ [(gameKey (st.game_counter + 1), Game.init)]
    current_game_id := some (gameKey (st.game_counter + 1))
    game_counter := st.game_counter + 1 }

/-- _process_kill_event: start a game implicitly when none is current, then
mutate the current game.  The inner none branches are unreachable from
states the parse produces (the current id is always a key of games); Python
would raise a KeyError there. -/
def processKillEvent (st : QuakeLogParser) (ev : KillEvent) : QuakeLogParser :=
  let st1 :=
    match st.current_game_id with
    | none => startNewGame st
    | some _ => st
  match st1.current_game_id with
  | none => st1
  | some gid =>
    match lookupGame st1.games gid with
    | none => st1
    | some g => { st1 with games := setGame st1.games gid (applyKill g ev) }

/-- The body of the parse loop for one raw line. -/
def processLine (st : QuakeLogParser) (line : String) : QuakeLogParser :=
  match classifyLine line with
  | .noEvent => st
  | .matchStart => startNewGame st
  | .killEvent ev => processKillEvent st ev

/-- Run the loop of parse_log_file over the lines of the file, starting
from the reset state. -/
def parseLines (lines : List String) : QuakeLogParser :=
  lines.foldl processLine QuakeLogParser.init

/-- The error taxonomy of the parse: FileNotFoundError. -/
inductive ParseError where
  | notFound : ParseError
deriving DecidableEq, Repr

/-- parse_log_file: the file-system argument is none when os.path.exists
fails, in which case FileNotFoundError is raised before the state reset and
before any line is read; otherwise the instance state is reset, every line
is folded through the loop, and self.games is returned (together with the
mutated instance state).  The prior instance state st is discarded by the
reset. -/
def parse_log_file (st : QuakeLogParser) (file : Option (List String)) :
    Except ParseError (QuakeLogParser × List (String × Game)) :=
  match file with
  | none => Except.error ParseError.notFound
  | some lines =>
    let st' := parseLines lines
    Except.ok (st', st'.games)

/-- The score contribution of one kill event to one name (the dincr deltas
of _process_kill_event). -/
def killDelta (name : String) (ev : KillEvent) : Int :=
  if ev.killer_name = "<world>" then
    if ev.victim_name ≠ "<world>" ∧ ev.victim_name = name then -1 else 0
  else
    if ev.killer_name = name then 1 else 0

/-- Whether one kill event touches the kills entry of one name. -/
def touchName (name : String) (ev : KillEvent) : Bool :=
  if ev.killer_name = "<world>" then
    decide (ev.victim_name ≠ "<world>") && (ev.victim_name == name)
  else
    ev.killer_name == name

/-- Fold a batch of kill events into one game, as the loop does for events
attributed to the same match. -/
def foldKills (g : Game) (evs : List KillEvent) : Game :=
  evs.foldl applyKill g

/-- The games map of any reachable parser state: its keys are game_1 ..
game_counter in order, and the current id (when set) is one of them. -/
def KeysInv (st : QuakeLogParser) : Prop :=
  st.games.map Prod.fst = (List.range st.game_counter).map (fun i => gameKey (i + 1)) ∧
  ∀ gid, st.current_game_id = some gid → gid ∈ st.games.map Prod.fst

/-- A property holding of every game currently in the map. -/
def GamesPred (P : Game → Prop) (st : QuakeLogParser) : Prop :=
  ∀ p ∈ st.games, P p.2

/-! ### Lemmas about the kills association list -/

theorem lookupScore_dincr_self (m : List (String × Int)) (k : String) (d : Int) :
    lookupScore (dincr m k d) k = some ((lookupScore m k).getD 0 + d) := by
  induction m with
  | nil => simp [dincr, lookupScore]
  | cons p rest ih =>
    obtain ⟨k', v⟩ := p
    by_cases h : k' = k
    · subst h; simp [dincr, lookupScore]
    · simp [dincr, lookupScore, h, ih]

theorem lookupScore_dincr_ne (m : List (String × Int)) (k x : String) (d : Int)
    (hx : x ≠ k) : lookupScore (dincr m k d) x = lookupScore m x := by
  have hkx : ¬ k = x := fun h => hx h.symm
  induction m with
  | nil => simp [dincr, lookupScore, hkx]
  | cons p rest ih =>
    obtain ⟨k', v⟩ := p
    by_cases h : k' = k
    · subst h
      simp [dincr, lookupScore, hkx]
    · simp [dincr, lookupScore, h, ih]

theorem lookupScore_dincr_isSome (m : List (String × Int)) (k x : String) (d : Int)
    (h : (lookupScore (dincr m k d) x).isSome = true) :
    x = k ∨ (lookupScore m x).isSome = true := by
  by_cases hx : x = k
  · exact Or.inl hx
  · right; rwa [lookupScore_dincr_ne m k x d hx] at h

/-! ### Lemmas about the sorted players list -/

theorem mem_insertSorted (x y : String) (l : List String) :
    x ∈ insertSorted y l ↔ x = y ∨ x ∈ l := by
  induction l with
  | nil => simp [insertSorted]
  | cons z zs ih =>
    by_cases h1 : y < z
    · simp [insertSorted, h1]
    · by_cases h2 : y = z
      · subst h2
        rw [insertSorted, if_neg h1, if_pos rfl]
        simp only [List.mem_cons]
        tauto
      · simp only [insertSorted, if_neg h1, if_neg h2, List.mem_cons, ih]
        tauto

theorem sorted_insertSorted (y : String) (l : List String)
    (hl : l.Sorted (· < ·)) : (insertSorted y l).Sorted (· < ·) := by
  induction l with
  | nil => simp [insertSorted]
  | cons z zs ih =>
    rw [List.sorted_cons] at hl
    obtain ⟨hz, hzs⟩ := hl
    by_cases h1 : y < z
    · rw [insertSorted, if_pos h1, List.sorted_cons]
      refine ⟨?_, by rw [List.sorted_cons]; exact ⟨hz, hzs⟩⟩
      intro b hb
      rcases List.mem_cons.mp hb with rfl | hb
      · exact h1
      · exact lt_trans h1 (hz b hb)
    · by_cases h2 : y = z
      · rw [insertSorted, if_neg h1, if_pos h2, List.sorted_cons]
        exact ⟨hz, hzs⟩
      · have hzy : z < y := by
          rcases lt_trichotomy y z with h | h | h
          · exact absurd h h1
          · exact absurd h h2
          · exact h
        rw [insertSorted, if_neg h1, if_neg h2, List.sorted_cons]
        refine ⟨?_, ih hzs⟩
        intro b hb
        rcases (mem_insertSorted b y zs).mp hb with rfl | hb
        · exact hzy
        · exact hz b hb

theorem mem_sortDedup (x : String) (l : List String) :
    x ∈ sortDedup l ↔ x ∈ l := by
  induction l with
  | nil => simp [sortDedup]
  | cons y ys ih =>
    simp only [sortDedup, List.foldr_cons, List.mem_cons]
    rw [show List.foldr insertSorted [] ys = sortDedup ys from rfl]
    rw [mem_insertSorted, ih]

theorem sorted_sortDedup (l : List String) : (sortDedup l).Sorted (· < ·) := by
  induction l with
  | nil => simp [sortDedup]
  | cons y ys ih => exact sorted_insertSorted y _ ih

theorem sortedLt_eq_of_mem_iff (l m : List String)
    (hl : l.Sorted (· < ·)) (hm : m.Sorted (· < ·))
    (h : ∀ x, x ∈ l ↔ x ∈ m) : l = m := by
  induction l generalizing m with
  | nil =>
    cases m with
    | nil => rfl
    | cons b m' => exact absurd ((h b).mpr (List.mem_cons_self b m')) (List.not_mem_nil b)
  | cons a l' ih =>
    cases m with
    | nil => exact absurd ((h a).mp (List.mem_cons_self a l')) (List.not_mem_nil a)
    | cons b m' =>
      rw [List.sorted_cons] at hl hm
      obtain ⟨hal, hl'⟩ := hl
      obtain ⟨hbm, hm'⟩ := hm
      have hab : a = b := by
        rcases List.mem_cons.mp ((h a).mp (List.mem_cons_self a l')) with h1 | h1
        · exact h1
        · rcases List.mem_cons.mp ((h b).mpr (List.mem_cons_self b m')) with h2 | h2
          · exact h2.symm
          · exact absurd (lt_trans (hbm a h1) (hal b h2)) (lt_irrefl b)
      subst hab
      have htail : ∀ x, x ∈ l' ↔ x ∈ m' := by
        intro x
        constructor
        · intro hx
          rcases List.mem_cons.mp ((h x).mp (List.mem_cons.mpr (Or.inr hx))) with rfl | h2
          · exact absurd (hal x hx) (lt_irrefl x)
          · exact h2
        · intro hx
          rcases List.mem_cons.mp ((h x).mpr (List.mem_cons.mpr (Or.inr hx))) with rfl | h2
          · exact absurd (hbm x hx) (lt_irrefl x)
          · exact h2
      rw [ih m' hl' hm' htail]

theorem sortDedup_congr (l l' : List String) (h : ∀ x, x ∈ l ↔ x ∈ l') :
    sortDedup l = sortDedup l' := by
  refine sortedLt_eq_of_mem_iff _ _ (sorted_sortDedup l) (sorted_sortDedup l') ?_
  intro x
  rw [mem_sortDedup, mem_sortDedup]
  exact h x

/-! ### Lemmas about the games map -/

theorem lookupGame_setGame_self (l : List (String × Game)) (gid : String) (g : Game) :
    lookupGame (setGame l gid g) gid = some g := by
  induction l with
  | nil => simp [setGame, lookupGame]
  | cons p rest ih =>
    obtain ⟨k, v⟩ := p
    by_cases h : k = gid
    · subst h; simp [setGame, lookupGame]
    · simp [setGame, lookupGame, h, ih]

theorem map_fst_setGame_of_mem (l : List (String × Game)) (gid : String) (g : Game)
    (h : gid ∈ l.map Prod.fst) :
    (setGame l gid g).map Prod.fst = l.map Prod.fst := by
  induction l with
  | nil => simp at h
  | cons p rest ih =>
    obtain ⟨k, v⟩ := p
    by_cases hk : k = gid
    · subst hk; simp [setGame]
    · simp only [List.map_cons, List.mem_cons] at h
      rcases h with h | h
      · exact absurd h.symm hk
      · simp [setGame, hk, ih h]

theorem mem_setGame (l : List (String × Game)) (gid : String) (g : Game)
    (p : String × Game) (h : p ∈ setGame l gid g) : p ∈ l ∨ p = (gid, g) := by
  induction l with
  | nil =>
    simp [setGame] at h
    exact Or.inr h
  | cons q rest ih =>
    obtain ⟨k, v⟩ := q
    by_cases hk : k = gid
    · subst hk
      have h2 : p = (k, g) ∨ p ∈ rest := by simpa [setGame] using h
      rcases h2 with h2 | h2
      · exact Or.inr h2
      · exact Or.inl (List.mem_cons.mpr (Or.inr h2))
    · simp only [setGame, if_neg hk, List.mem_cons] at h
      rcases h with h | h
      · exact Or.inl (List.mem_cons.mpr (Or.inl h))
      · rcases ih h with h' | h'
        · exact Or.inl (List.mem_cons.mpr (Or.inr h'))
        · exact Or.inr h'

theorem lookupGame_mem (l : List (String × Game)) (gid : String) (g : Game)
    (h : lookupGame l gid = some g) : (gid, g) ∈ l := by
  induction l with
  | nil => simp [lookupGame] at h
  | cons p rest ih =>
    obtain ⟨k, v⟩ := p
    by_cases hk : k = gid
    · subst hk
      have h' : some v = some g := by simpa [lookupGame] using h
      cases h'
      exact List.mem_cons_self _ _
    · simp only [lookupGame, if_neg hk] at h
      exact List.mem_cons.mpr (Or.inr (ih h))

theorem lookupGame_isSome_of_mem_keys (l : List (String × Game)) (gid : String)
    (h : gid ∈ l.map Prod.fst) : ∃ g, lookupGame l gid = some g := by
  induction l with
  | nil => simp at h
  | cons p rest ih =>
    obtain ⟨k, v⟩ := p
    by_cases hk : k = gid
    · subst hk; exact ⟨v, by simp [lookupGame]⟩
    · simp only [List.map_cons, List.mem_cons] at h
      rcases h with h | h
      · exact absurd h.symm hk
      · obtain ⟨g, hg⟩ := ih h
        exact ⟨g, by simp [lookupGame, hk, hg]⟩

/-! ### Lemmas about applyKill -/

theorem applyKill_total_kills (g : Game) (ev : KillEvent) :
    (applyKill g ev).total_kills = g.total_kills + 1 := rfl

theorem applyKill_players (g : Game) (ev : KillEvent) :
    (applyKill g ev).players = sortDedup (g.players ++ evNames ev) := rfl

theorem world_not_mem_evNames (ev : KillEvent) : "<world>" ∉ evNames ev := by
  unfold evNames
  intro h
  rcases List.mem_append.mp h with h | h
  · by_cases hk : ev.killer_name ≠ "<world>"
    · rw [if_pos hk] at h
      rcases List.mem_singleton.mp h with h'
      exact hk h'.symm
    · rw [if_neg hk] at h
      exact List.not_mem_nil _ h
  · by_cases hv : ev.victim_name ≠ "<world>"
    · rw [if_pos hv] at h
      rcases List.mem_singleton.mp h with h'
      exact hv h'.symm
    · rw [if_neg hv] at h
      exact List.not_mem_nil _ h

theorem applyKill_kills_keys (g : Game) (ev : KillEvent) (x : String)
    (h : (lookupScore (applyKill g ev).kills x).isSome = true) :
    (lookupScore g.kills x).isSome = true ∨ x ∈ evNames ev := by
  unfold applyKill at h
  simp only at h
  by_cases hk : ev.killer_name = "<world>"
  · rw [if_pos hk] at h
    by_cases hv : ev.victim_name ≠ "<world>"
    · rw [if_pos hv] at h
      rcases lookupScore_dincr_isSome _ _ _ _ h with rfl | h'
      · right
        unfold evNames
        rw [if_pos hv]
        exact List.mem_append.mpr (Or.inr (List.mem_singleton.mpr rfl))
      · exact Or.inl h'
    · rw [if_neg hv] at h
      exact Or.inl h
  · rw [if_neg hk] at h
    rcases lookupScore_dincr_isSome _ _ _ _ h with rfl | h'
    · right
      unfold evNames
      rw [if_pos hk]
      exact List.mem_append.mpr (Or.inl (List.mem_singleton.mpr rfl))
    · exact Or.inl h'

/-! ### The keys invariant of the games map -/

theorem keysInv_init : KeysInv QuakeLogParser.init := by
  constructor
  · simp [QuakeLogParser.init]
  · intro gid h
    simp [QuakeLogParser.init] at h

theorem keysInv_startNewGame (st : QuakeLogParser) (h : KeysInv st) :
    KeysInv (startNewGame st) := by
  obtain ⟨hkeys, _⟩ := h
  constructor
  · simp only [startNewGame, List.map_append, List.map_cons, List.map_nil, hkeys,
      List.range_succ]
  · intro gid hgid
    simp only [startNewGame, Option.some.injEq] at hgid
    subst hgid
    simp [startNewGame]


/-- When a match is current and its id is bound in the games map,
_process_kill_event only rewrites that binding with applyKill. -/
theorem processKillEvent_eq (st : QuakeLogParser) (ev : KillEvent) (gid : String)
    (g : Game) (hc : st.current_game_id = some gid)
    (hg : lookupGame st.games gid = some g) :
    processKillEvent st ev =
      { st with games := setGame st.games gid (applyKill g ev) } := by
  unfold processKillEvent
  simp only [hc, hg]

/-- When no match is current, _process_kill_event first starts a fresh game
and then proceeds exactly as it would on the started state. -/
theorem processKillEvent_none (st : QuakeLogParser) (ev : KillEvent)
    (hc : st.current_game_id = none) :
    processKillEvent st ev = processKillEvent (startNewGame st) ev := by
  unfold processKillEvent
  simp only [hc, startNewGame]

theorem keysInv_processKillEvent_some (st : QuakeLogParser) (ev : KillEvent)
    (gid : String) (g : Game) (hc : st.current_game_id = some gid)
    (hg : lookupGame st.games gid = some g) (h : KeysInv st) :
    KeysInv (processKillEvent st ev) := by
  rw [processKillEvent_eq st ev gid g hc hg]
  have hmem : gid ∈ st.games.map Prod.fst := h.2 gid hc
  constructor
  · simp only [map_fst_setGame_of_mem _ _ _ hmem]
    exact h.1
  · intro gid' hgid'
    simp only at hgid'
    rw [hc] at hgid'
    cases hgid'
    simp only [map_fst_setGame_of_mem _ _ _ hmem]
    exact hmem

theorem startNewGame_current (st : QuakeLogParser) :
    (startNewGame st).current_game_id = some (gameKey (st.game_counter + 1)) := rfl

theorem keysInv_processKillEvent (st : QuakeLogParser) (ev : KillEvent)
    (h : KeysInv st) : KeysInv (processKillEvent st ev) := by
  cases hc : st.current_game_id with
  | some gid =>
    obtain ⟨g, hg⟩ := lookupGame_isSome_of_mem_keys _ _ (h.2 gid hc)
    exact keysInv_processKillEvent_some st ev gid g hc hg h
  | none =>
    rw [processKillEvent_none st ev hc]
    have h1 := keysInv_startNewGame st h
    obtain ⟨g, hg⟩ :=
      lookupGame_isSome_of_mem_keys _ _ (h1.2 _ (startNewGame_current st))
    exact keysInv_processKillEvent_some _ ev _ g (startNewGame_current st) hg h1

theorem keysInv_processLine (st : QuakeLogParser) (line : String)
    (h : KeysInv st) : KeysInv (processLine st line) := by
  unfold processLine
  cases classifyLine line with
  | noEvent => exact h
  | matchStart => exact keysInv_startNewGame st h
  | killEvent ev => exact keysInv_processKillEvent st ev h

theorem keysInv_foldl (lines : List String) (st : QuakeLogParser) (h : KeysInv st) :
    KeysInv (lines.foldl processLine st) := by
  induction lines generalizing st with
  | nil => exact h
  | cons l rest ih => exact ih _ (keysInv_processLine st l h)

theorem keysInv_parseLines (lines : List String) : KeysInv (parseLines lines) :=
  keysInv_foldl lines QuakeLogParser.init keysInv_init

/-! ### The key list only ever grows by appending -/

theorem counter_le_processLine (st : QuakeLogParser) (line : String)
    (h : KeysInv st) : st.game_counter ≤ (processLine st line).game_counter := by
  unfold processLine
  cases classifyLine line with
  | noEvent => exact le_refl _
  | matchStart => exact Nat.le_succ _
  | killEvent ev =>
    show st.game_counter ≤ (processKillEvent st ev).game_counter
    cases hc : st.current_game_id with
    | some gid =>
      obtain ⟨g, hg⟩ := lookupGame_isSome_of_mem_keys _ _ (h.2 gid hc)
      rw [processKillEvent_eq st ev gid g hc hg]
    | none =>
      rw [processKillEvent_none st ev hc]
      have h1 := keysInv_startNewGame st h
      obtain ⟨g, hg⟩ :=
        lookupGame_isSome_of_mem_keys _ _ (h1.2 _ (startNewGame_current st))
      rw [processKillEvent_eq _ ev _ g (startNewGame_current st) hg]
      exact Nat.le_succ _

theorem keys_extend_processLine (st : QuakeLogParser) (line : String)
    (h : KeysInv st) :
    ∃ t, (processLine st line).games.map Prod.fst = st.games.map Prod.fst ++ t := by
  unfold processLine
  cases classifyLine line with
  | noEvent => exact ⟨[], by simp⟩
  | matchStart => exact ⟨[gameKey (st.game_counter + 1)], by simp [startNewGame]⟩
  | killEvent ev =>
    show ∃ t, (processKillEvent st ev).games.map Prod.fst = st.games.map Prod.fst ++ t
    cases hc : st.current_game_id with
    | some gid =>
      obtain ⟨g, hg⟩ := lookupGame_isSome_of_mem_keys _ _ (h.2 gid hc)
      rw [processKillEvent_eq st ev gid g hc hg]
      exact ⟨[], by simp [map_fst_setGame_of_mem _ _ _ (h.2 gid hc)]⟩
    | none =>
      rw [processKillEvent_none st ev hc]
      have h1 := keysInv_startNewGame st h
      have hmem := h1.2 _ (startNewGame_current st)
      obtain ⟨g, hg⟩ := lookupGame_isSome_of_mem_keys _ _ hmem
      rw [processKillEvent_eq _ ev _ g (startNewGame_current st) hg]
      refine ⟨[gameKey (st.game_counter + 1)], ?_⟩
      simp only [map_fst_setGame_of_mem _ _ _ hmem]
      simp [startNewGame]

theorem keys_extend_foldl (more : List String) (st : QuakeLogParser) (h : KeysInv st) :
    ∃ t, (more.foldl processLine st).games.map Prod.fst = st.games.map Prod.fst ++ t := by
  induction more generalizing st with
  | nil => exact ⟨[], by simp⟩
  | cons l rest ih =>
    obtain ⟨t1, ht1⟩ := keys_extend_processLine st l h
    obtain ⟨t2, ht2⟩ := ih (processLine st l) (keysInv_processLine st l h)
    exact ⟨t1 ++ t2, by simp only [List.foldl_cons, ht2, ht1, List.append_assoc]⟩

/-! ### Generic per-game invariants of the parse -/

theorem gamesPred_startNewGame (P : Game → Prop) (st : QuakeLogParser)
    (hinit : P Game.init) (h : GamesPred P st) : GamesPred P (startNewGame st) := by
  intro p hp
  simp only [startNewGame] at hp
  rcases List.mem_append.mp hp with hp | hp
  · exact h p hp
  · rcases List.mem_singleton.mp hp with rfl
    exact hinit

theorem processKillEvent_stuck (st : QuakeLogParser) (ev : KillEvent) (gid : String)
    (hc : st.current_game_id = some gid) (hg : lookupGame st.games gid = none) :
    processKillEvent st ev = st := by
  unfold processKillEvent
  simp only [hc, hg]

theorem gamesPred_processKillEvent_some (P : Game → Prop) (st : QuakeLogParser)
    (ev : KillEvent) (gid : String) (hc : st.current_game_id = some gid)
    (hstep : ∀ g ev, P g → P (applyKill g ev)) (h : GamesPred P st) :
    GamesPred P (processKillEvent st ev) := by
  cases hg : lookupGame st.games gid with
  | none => rw [processKillEvent_stuck st ev gid hc hg]; exact h
  | some g =>
    rw [processKillEvent_eq st ev gid g hc hg]
    intro p hp
    simp only at hp
    rcases mem_setGame _ _ _ p hp with hp | hp
    · exact h p hp
    · subst hp
      exact hstep g ev (h (gid, g) (lookupGame_mem _ _ _ hg))

theorem gamesPred_processKillEvent (P : Game → Prop) (st : QuakeLogParser)
    (ev : KillEvent) (hinit : P Game.init)
    (hstep : ∀ g ev, P g → P (applyKill g ev)) (h : GamesPred P st) :
    GamesPred P (processKillEvent st ev) := by
  cases hc : st.current_game_id with
  | some gid => exact gamesPred_processKillEvent_some P st ev gid hc hstep h
  | none =>
    rw [processKillEvent_none st ev hc]
    exact gamesPred_processKillEvent_some P _ ev _ (startNewGame_current st) hstep
      (gamesPred_startNewGame P st hinit h)

theorem gamesPred_processLine (P : Game → Prop) (st : QuakeLogParser) (line : String)
    (hinit : P Game.init) (hstep : ∀ g ev, P g → P (applyKill g ev))
    (h : GamesPred P st) : GamesPred P (processLine st line) := by
  unfold processLine
  cases classifyLine line with
  | noEvent => exact h
  | matchStart => exact gamesPred_startNewGame P st hinit h
  | killEvent ev => exact gamesPred_processKillEvent P st ev hinit hstep h

theorem gamesPred_parseLines (P : Game → Prop) (lines : List String)
    (hinit : P Game.init) (hstep : ∀ g ev, P g → P (applyKill g ev)) :
    GamesPred P (parseLines lines) := by
  have hbase : GamesPred P QuakeLogParser.init := by
    intro p hp
    simp [QuakeLogParser.init] at hp
  unfold parseLines
  generalize QuakeLogParser.init = st at hbase ⊢
  induction lines generalizing st with
  | nil => exact hbase
  | cons l rest ih =>
    exact ih _ (gamesPred_processLine P st l hinit hstep hbase)

/-! ### Logs made of markers and ignorable lines only -/

theorem foldl_markers (lines : List String) (st : QuakeLogParser)
    (h : ∀ l ∈ lines, classifyLine l = LineResult.matchStart ∨
      classifyLine l = LineResult.noEvent) :
    (lines.foldl processLine st).games =
      st.games ++ (List.range (lines.countP
          (fun l => decide (classifyLine l = LineResult.matchStart)))).map
        (fun i => (gameKey (st.game_counter + i + 1), Game.init)) ∧
    (lines.foldl processLine st).game_counter =
      st.game_counter + lines.countP
        (fun l => decide (classifyLine l = LineResult.matchStart)) := by
  induction lines generalizing st with
  | nil => simp
  | cons l rest ih =>
    have hrest : ∀ l' ∈ rest, classifyLine l' = LineResult.matchStart ∨
        classifyLine l' = LineResult.noEvent :=
      fun l' hl' => h l' (List.mem_cons.mpr (Or.inr hl'))
    rcases h l (List.mem_cons_self l rest) with hl | hl
    · have hstep : processLine st l = startNewGame st := by
        unfold processLine; rw [hl]
      rw [List.countP_cons_of_pos _ _ (by simp [hl]), List.foldl_cons, hstep]
      obtain ⟨h1, h2⟩ := ih (startNewGame st) hrest
      have hlist : (gameKey (st.game_counter + 1), Game.init) ::
          (List.range (rest.countP
            (fun l => decide (classifyLine l = LineResult.matchStart)))).map
            (fun i => (gameKey (st.game_counter + 1 + i + 1), Game.init)) =
          (List.range (rest.countP
            (fun l => decide (classifyLine l = LineResult.matchStart)) + 1)).map
            (fun i => (gameKey (st.game_counter + i + 1), Game.init)) := by
        rw [List.range_succ_eq_map, List.map_cons, List.map_map]
        congr 1
        refine List.map_congr_left ?_
        intro i _
        simp only [Function.comp_apply, Nat.succ_eq_add_one]
        have harith : st.game_counter + 1 + i + 1 = st.game_counter + (i + 1) + 1 := by
          omega
        rw [harith]
      constructor
      · rw [h1]
        simp only [startNewGame, List.append_assoc, List.singleton_append]
        rw [hlist]
      · rw [h2]
        simp only [startNewGame]
        omega
    · have hstep : processLine st l = st := by
        unfold processLine; rw [hl]
      rw [List.countP_cons_of_neg _ _ (by simp [hl]), List.foldl_cons, hstep]
      exact ih st hrest

/-! ### Score accounting for a batch of kill events -/

theorem killDelta_of_not_touch (name : String) (ev : KillEvent)
    (h : touchName name ev = false) : killDelta name ev = 0 := by
  unfold touchName at h
  unfold killDelta
  by_cases hk : ev.killer_name = "<world>"
  · rw [if_pos hk] at h
    rw [if_pos hk, if_neg]
    rintro ⟨hv, hn⟩
    rw [Bool.and_eq_false_iff] at h
    rcases h with h | h
    · simp [hv] at h
    · simp [hn] at h
  · rw [if_neg hk] at h
    rw [if_neg hk, if_neg]
    intro hn
    simp [hn] at h

theorem lookupScore_applyKill (g : Game) (ev : KillEvent) (name : String) :
    lookupScore (applyKill g ev).kills name =
      if touchName name ev then
        some ((lookupScore g.kills name).getD 0 + killDelta name ev)
      else lookupScore g.kills name := by
  by_cases hk : ev.killer_name = "<world>"
  · by_cases hv : ev.victim_name = "<world>"
    · simp [applyKill, touchName, killDelta, hk, hv]
    · by_cases hn : ev.victim_name = name
      · subst hn
        simp [applyKill, touchName, killDelta, hk, hv,
          lookupScore_dincr_self g.kills ev.victim_name (-1)]
      · simp [applyKill, touchName, killDelta, hk, hv, hn,
          lookupScore_dincr_ne g.kills ev.victim_name name (-1) (fun h => hn h.symm)]
  · by_cases hn : ev.killer_name = name
    · subst hn
      simp [applyKill, touchName, killDelta, hk,
        lookupScore_dincr_self g.kills ev.killer_name 1]
    · simp [applyKill, touchName, killDelta, hk, hn,
        lookupScore_dincr_ne g.kills ev.killer_name name 1 (fun h => hn h.symm)]

theorem lookupScore_foldKills (evs : List KillEvent) (g : Game) (name : String) :
    lookupScore (foldKills g evs).kills name =
      if evs.any (touchName name) || (lookupScore g.kills name).isSome then
        some ((lookupScore g.kills name).getD 0 + (evs.map (killDelta name)).sum)
      else lookupScore g.kills name := by
  induction evs generalizing g with
  | nil =>
    simp only [foldKills, List.foldl_nil, List.any_nil, Bool.false_or, List.map_nil,
      List.sum_nil, add_zero]
    cases h : lookupScore g.kills name with
    | none => simp
    | some v => simp
  | cons ev rest ih =>
    have hfold : foldKills g (ev :: rest) = foldKills (applyKill g ev) rest := rfl
    cases ht : touchName name ev with
    | true =>
      have hla : lookupScore (applyKill g ev).kills name
          = some ((lookupScore g.kills name).getD 0 + killDelta name ev) := by
        rw [lookupScore_applyKill, if_pos ht]
      rw [hfold, ih (applyKill g ev), hla]
      simp [List.any_cons, ht, List.map_cons, List.sum_cons, add_assoc]
    | false =>
      have hla : lookupScore (applyKill g ev).kills name = lookupScore g.kills name := by
        rw [lookupScore_applyKill, if_neg (by simp [ht])]
      rw [hfold, ih (applyKill g ev), hla]
      simp [List.any_cons, ht, killDelta_of_not_touch name ev ht]

theorem perm_any (l l' : List KillEvent) (hp : l.Perm l') (p : KillEvent → Bool) :
    l.any p = l'.any p := by
  cases h2 : l'.any p with
  | true =>
    obtain ⟨x, hx, hpx⟩ := List.any_eq_true.mp h2
    exact List.any_eq_true.mpr ⟨x, hp.mem_iff.mpr hx, hpx⟩
  | false =>
    cases h1 : l.any p with
    | false => rfl
    | true =>
      obtain ⟨x, hx, hpx⟩ := List.any_eq_true.mp h1
      have : l'.any p = true := List.any_eq_true.mpr ⟨x, hp.mem_iff.mp hx, hpx⟩
      rw [this] at h2
      exact h2

/-! ### The players list of a batch of kill events -/

theorem players_foldKills_aux (evs : List KillEvent) (g : Game) (ps : List String)
    (hg : g.players = sortDedup ps) :
    (foldKills g evs).players = sortDedup (ps ++ evs.flatMap evNames) := by
  induction evs generalizing g ps with
  | nil =>
    simp only [foldKills, List.foldl_nil, List.flatMap_nil, List.append_nil]
    exact hg
  | cons ev rest ih =>
    have h1 : (applyKill g ev).players = sortDedup (ps ++ evNames ev) := by
      rw [applyKill_players, hg]
      refine sortDedup_congr _ _ ?_
      intro x
      simp [mem_sortDedup]
    have h2 := ih (applyKill g ev) (ps ++ evNames ev) h1
    have hfold : foldKills g (ev :: rest) = foldKills (applyKill g ev) rest := rfl
    rw [hfold, h2, List.flatMap_cons]
    rw [List.append_assoc]

/-! ### Convenience lemmas for single kill events -/

theorem applyKill_kills_regular (g : Game) (ev : KillEvent)
    (h : ev.killer_name ≠ "<world>") :
    (applyKill g ev).kills = dincr g.kills ev.killer_name 1 := by
  unfold applyKill
  simp only [if_neg h]

theorem applyKill_kills_world (g : Game) (ev : KillEvent)
    (hk : ev.killer_name = "<world>") (hv : ev.victim_name ≠ "<world>") :
    (applyKill g ev).kills = dincr g.kills ev.victim_name (-1) := by
  unfold applyKill
  simp only [if_pos hk, if_pos hv]

theorem mem_players_applyKill (g : Game) (ev : KillEvent) (x : String) :
    x ∈ (applyKill g ev).players ↔ x ∈ g.players ∨ x ∈ evNames ev := by
  rw [applyKill_players, mem_sortDedup, List.mem_append]

theorem killer_mem_evNames (ev : KillEvent) (h : ev.killer_name ≠ "<world>") :
    ev.killer_name ∈ evNames ev := by
  unfold evNames
  rw [if_pos h]
  exact List.mem_append.mpr (Or.inl (List.mem_singleton.mpr rfl))

theorem victim_mem_evNames (ev : KillEvent) (h : ev.victim_name ≠ "<world>") :
    ev.victim_name ∈ evNames ev := by
  unfold evNames
  rw [if_pos h]
  exact List.mem_append.mpr (Or.inr (List.mem_singleton.mpr rfl))

theorem sorted_players_applyKill (g : Game) (ev : KillEvent) :
    (applyKill g ev).players.Sorted (· < ·) := by
  rw [applyKill_players]
  exact sorted_sortDedup _

/-! ### Classification lemmas -/

theorem processLine_noEvent (st : QuakeLogParser) (line : String)
    (h : classifyLine line = LineResult.noEvent) : processLine st line = st := by
  unfold processLine
  rw [h]

theorem foldl_noEvents (lines : List String) (st : QuakeLogParser)
    (h : ∀ l ∈ lines, classifyLine l = LineResult.noEvent) :
    lines.foldl processLine st = st := by
  induction lines generalizing st with
  | nil => rfl
  | cons l rest ih =>
    rw [List.foldl_cons, processLine_noEvent st l (h l (List.mem_cons_self l rest))]
    exact ih st (fun l' hl' => h l' (List.mem_cons.mpr (Or.inr hl')))

theorem classify_empty_trim (s : String) (h : trimChars s.data = []) :
    classifyLine s = LineResult.noEvent := by
  unfold classifyLine
  simp [h]

theorem classify_matchStart_iff (l : String) :
    classifyLine l = LineResult.matchStart ↔
      hasSubstr "InitGame:".data (trimChars l.data) = true := by
  unfold classifyLine
  by_cases h0 : trimChars l.data = []
  · rw [h0]
    simp [hasSubstr, startsWithChars]
  · simp only [h0, if_false, if_neg h0]
    by_cases h1 : hasSubstr "InitGame:".data (trimChars l.data) = true
    · simp [h1]
    · rw [if_neg (by simpa using h1)]
      refine iff_of_false ?_ h1
      intro hc
      cases hm : matchKill (trimChars l.data) with
      | none => rw [hm] at hc; exact absurd hc (by simp)
      | some raw => rw [hm] at hc; exact absurd hc (by simp)

/-- A log consisting of one kill-event line parses to one implicitly
started game holding that kill. -/
theorem parse_single_kill (k : String) (ev : KillEvent)
    (hk : classifyLine k = LineResult.killEvent ev) :
    (parseLines [k]).games = [(gameKey 1, applyKill Game.init ev)] := by
  show (processLine QuakeLogParser.init k).games = _
  unfold processLine
  rw [hk]
  show (processKillEvent QuakeLogParser.init ev).games = _
  rw [processKillEvent_none _ _ rfl]
  rw [processKillEvent_eq (startNewGame QuakeLogParser.init) ev (gameKey 1) Game.init
    rfl (by decide)]
  simp [startNewGame, QuakeLogParser.init, setGame, gameKey]

/-! ### The claims -/

/-- C1 (amended): for every parsed log the keys of the result mapping are
exactly the strings game_1, game_2, ... (not match_1, match_2, ...),
assigned sequentially 1-based in the order matches appear, and processing
further lines only ever appends new keys, so an id is never changed after
assignment. -/
theorem c1_keys_sequential (lines more : List String) :
    (parseLines lines).games.map Prod.fst =
      (List.range (parseLines lines).game_counter).map (fun i => gameKey (i + 1)) ∧
    ((parseLines (lines ++ more)).games.map Prod.fst).take
        ((parseLines lines).games.map Prod.fst).length =
      (parseLines lines).games.map Prod.fst := by
  have hinv := keysInv_parseLines lines
  refine ⟨hinv.1, ?_⟩
  have happ : parseLines (lines ++ more) = more.foldl processLine (parseLines lines) := by
    unfold parseLines
    rw [List.foldl_append]
  rw [happ]
  obtain ⟨t, ht⟩ := keys_extend_foldl more (parseLines lines) hinv
  rw [ht]
  exact List.take_left _ _

/-- C1 counterexample: the claim names the keys match_1, match_2, ...; the
code produces game_1, game_2, ..., so already a log with one marker
refutes it. -/
theorem c1_counterexample :
    (parseLines ["0:00 InitGame: ..."]).games.map Prod.fst ≠ ["match_1"] := by
  decide

/-- C4: a log whose lines are only match-start markers (lines containing
InitGame: after stripping, which classify as matchStart) and ignorable
lines, with no kill-event line, yields exactly one fresh empty match per
marker, keyed sequentially. -/
theorem c4_markers_only (lines : List String)
    (h : ∀ l ∈ lines, isKillLine l = false) :
    (parseLines lines).games =
      (List.range (lines.countP
          (fun l => hasSubstr "InitGame:".data (trimChars l.data)))).map
        (fun i => (gameKey (i + 1), Game.init)) := by
  have hcases : ∀ l ∈ lines, classifyLine l = LineResult.matchStart ∨
      classifyLine l = LineResult.noEvent := by
    intro l hl
    have hkl := h l hl
    unfold isKillLine at hkl
    cases hc : classifyLine l with
    | matchStart => exact Or.inl rfl
    | noEvent => exact Or.inr rfl
    | killEvent ev => rw [hc] at hkl; exact Bool.noConfusion hkl
  have hcount : lines.countP (fun l => hasSubstr "InitGame:".data (trimChars l.data)) =
      lines.countP (fun l => decide (classifyLine l = LineResult.matchStart)) := by
    refine List.countP_congr ?_
    intro l _
    cases hb : hasSubstr "InitGame:".data (trimChars l.data) with
    | true => simp [(classify_matchStart_iff l).mpr hb]
    | false =>
      have hnc : ¬ classifyLine l = LineResult.matchStart := by
        intro hc
        rw [(classify_matchStart_iff l).mp hc] at hb
        exact Bool.noConfusion hb
      simp [hnc]
  have hmain := foldl_markers lines QuakeLogParser.init hcases
  unfold parseLines
  rw [hmain.1, hcount]
  simp [QuakeLogParser.init]

/-- C4 witness: two markers with an ignorable line in between yield two
fresh empty matches. -/
theorem c4_markers_only_witness :
    (∀ l ∈ ["0:00 InitGame: ...", "junk", "0:15 InitGame: ..."],
      isKillLine l = false) ∧
    (parseLines ["0:00 InitGame: ...", "junk", "0:15 InitGame: ..."]).games =
      (List.range ((["0:00 InitGame: ...", "junk", "0:15 InitGame: ..."]).countP
          (fun l => hasSubstr "InitGame:".data (trimChars l.data)))).map
        (fun i => (gameKey (i + 1), Game.init)) :=
  ⟨by decide, c4_markers_only ["0:00 InitGame: ...", "junk", "0:15 InitGame: ..."]
    (by decide)⟩

/-- C5 (amended): when every line before some kill-event line is ignorable,
the parse up to and including that line implicitly creates exactly one
match, keyed game_1 (not match_1), holding exactly that kill. -/
theorem c5_implicit_match (pre : List String) (k : String) (ev : KillEvent)
    (hpre : ∀ l ∈ pre, classifyLine l = LineResult.noEvent)
    (hk : classifyLine k = LineResult.killEvent ev) :
    (parseLines (pre ++ [k])).games = [(gameKey 1, applyKill Game.init ev)] := by
  have happ : parseLines (pre ++ [k]) = [k].foldl processLine (parseLines pre) := by
    unfold parseLines
    rw [List.foldl_append]
  rw [happ, show parseLines pre = QuakeLogParser.init from
    foldl_noEvents pre QuakeLogParser.init hpre]
  exact parse_single_kill k ev hk

/-- C5 witness: an unrecognized line followed by a kill line. -/
theorem c5_implicit_match_witness :
    (∀ l ∈ ["junk"], classifyLine l = LineResult.noEvent) ∧
    classifyLine "0:20 Kill: 5 6 7: Carol killed Dave by MOD_SHOTGUN" =
      LineResult.killEvent ⟨"Carol", "Dave", "MOD_SHOTGUN"⟩ ∧
    (parseLines (["junk"] ++ ["0:20 Kill: 5 6 7: Carol killed Dave by MOD_SHOTGUN"])).games
      = [(gameKey 1, applyKill Game.init ⟨"Carol", "Dave", "MOD_SHOTGUN"⟩)] :=
  ⟨by decide, by decide,
    c5_implicit_match ["junk"] "0:20 Kill: 5 6 7: Carol killed Dave by MOD_SHOTGUN"
      ⟨"Carol", "Dave", "MOD_SHOTGUN"⟩ (by decide) (by decide)⟩

/-- C5 counterexample: the claim identifies the implicit match as match_1;
the code keys it game_1. -/
theorem c5_counterexample :
    (parseLines ["0:05 Kill: 1 2 3: Alice killed Bob by MOD_ROCKET"]).games.map Prod.fst
      ≠ ["match_1"] := by
  decide

/-- C6: a missing input path raises FileNotFoundError before the state
reset and before any line is read; the caller receives the error and no
result mapping. -/
theorem c6_not_found (st : QuakeLogParser) :
    parse_log_file st none = Except.error ParseError.notFound := rfl

/-- C7: unrecognized lines (including empty ones) are skipped with no state
change and no error; a parse over an existing file always returns a result,
and a log with no recognized line yields the empty mapping. -/
theorem c7_lenient_skip :
    (∀ (st : QuakeLogParser) (line : String),
      classifyLine line = LineResult.noEvent → processLine st line = st) ∧
    (∀ s : String, trimChars s.data = [] → classifyLine s = LineResult.noEvent) ∧
    (∀ (st : QuakeLogParser) (lines : List String), ∃ r,
      parse_log_file st (some lines) = Except.ok r) ∧
    (∀ lines : List String, (∀ l ∈ lines, classifyLine l = LineResult.noEvent) →
      (parseLines lines).games = []) := by
  refine ⟨processLine_noEvent, classify_empty_trim, ?_, ?_⟩
  · intro st lines
    exact ⟨(parseLines lines, (parseLines lines).games), rfl⟩
  · intro lines h
    rw [show parseLines lines = QuakeLogParser.init from foldl_noEvents lines _ h]
    rfl

/-- C7 witness: a malformed line, the empty line, and a two-line junk log. -/
theorem c7_lenient_skip_witness :
    processLine QuakeLogParser.init " 12:00 ShutdownGame:" = QuakeLogParser.init ∧
    classifyLine "" = LineResult.noEvent ∧
    (∃ r, parse_log_file QuakeLogParser.init (some [" 12:00 ShutdownGame:", ""])
      = Except.ok r) ∧
    (parseLines [" 12:00 ShutdownGame:", ""]).games = [] :=
  ⟨c7_lenient_skip.1 QuakeLogParser.init " 12:00 ShutdownGame:" (by decide),
   c7_lenient_skip.2.1 "" (by decide),
   c7_lenient_skip.2.2.1 QuakeLogParser.init [" 12:00 ShutdownGame:", ""],
   c7_lenient_skip.2.2.2 [" 12:00 ShutdownGame:", ""] (by decide)⟩

/-- C8: parse_log_file resets the instance state before processing, so a
second invocation on the state left by any successful first invocation
returns exactly what a fresh instance would return. -/
theorem c8_reset_between_runs (st0 st1 : QuakeLogParser) (L1 : List String)
    (r1 : List (String × Game)) (L2 : Option (List String))
    (h : parse_log_file st0 (some L1) = Except.ok (st1, r1)) :
    parse_log_file st1 L2 = parse_log_file QuakeLogParser.init L2 := by
  cases L2 with
  | none => rfl
  | some lines => rfl

/-- C8 witness: run on a one-marker log, then re-run on a different log. -/
theorem c8_reset_between_runs_witness :
    parse_log_file QuakeLogParser.init (some ["0:00 InitGame: x"]) =
      Except.ok (parseLines ["0:00 InitGame: x"], (parseLines ["0:00 InitGame: x"]).games) ∧
    parse_log_file (parseLines ["0:00 InitGame: x"]) (some ["junk"]) =
      parse_log_file QuakeLogParser.init (some ["junk"]) :=
  ⟨rfl, c8_reset_between_runs QuakeLogParser.init (parseLines ["0:00 InitGame: x"])
    ["0:00 InitGame: x"] (parseLines ["0:00 InitGame: x"]).games (some ["junk"]) rfl⟩

/-- C2 (amended): a kill event with killer A ≠ world and victim B,
processed on the current match, bumps total_kills by 1, bumps scores[A] by
1 (creating the entry at 0 first if absent, including the self-kill case
A = B), puts A and — when B ≠ world — also B into the sorted players list,
and for B ≠ A leaves the scores entry of B untouched (in particular this event
alone adds no entry for B). -/
theorem c2_regular_kill (st : QuakeLogParser) (gid : String) (g : Game)
    (A B w : String) (hc : st.current_game_id = some gid)
    (hg : lookupGame st.games gid = some g) (hA : A ≠ "<world>") :
    ∃ g', lookupGame (processKillEvent st ⟨A, B, w⟩).games gid = some g' ∧
      g'.total_kills = g.total_kills + 1 ∧
      lookupScore g'.kills A = some ((lookupScore g.kills A).getD 0 + 1) ∧
      A ∈ g'.players ∧ (B ≠ "<world>" → B ∈ g'.players) ∧
      g'.players.Sorted (· < ·) ∧
      (B ≠ A → lookupScore g'.kills B = lookupScore g.kills B) := by
  rw [processKillEvent_eq st ⟨A, B, w⟩ gid g hc hg]
  refine ⟨applyKill g ⟨A, B, w⟩, lookupGame_setGame_self st.games gid _,
    applyKill_total_kills g _, ?_, ?_, ?_, sorted_players_applyKill g _, ?_⟩
  · rw [applyKill_kills_regular g _ hA]
    exact lookupScore_dincr_self g.kills A 1
  · exact (mem_players_applyKill g _ A).mpr (Or.inr (killer_mem_evNames _ hA))
  · intro hB
    exact (mem_players_applyKill g _ B).mpr (Or.inr (victim_mem_evNames _ hB))
  · intro hBA
    rw [applyKill_kills_regular g _ hA]
    exact lookupScore_dincr_ne g.kills A B 1 hBA

/-- C2 witness: Alice kills Bob in the first match. -/
theorem c2_regular_kill_witness :
    (startNewGame QuakeLogParser.init).current_game_id = some "game_1" ∧
    lookupGame (startNewGame QuakeLogParser.init).games "game_1" = some Game.init ∧
    "Alice" ≠ "<world>" ∧
    (∃ g', lookupGame (processKillEvent (startNewGame QuakeLogParser.init)
        ⟨"Alice", "Bob", "MOD_ROCKET"⟩).games "game_1" = some g' ∧
      g'.total_kills = Game.init.total_kills + 1 ∧
      lookupScore g'.kills "Alice" =
        some ((lookupScore Game.init.kills "Alice").getD 0 + 1) ∧
      "Alice" ∈ g'.players ∧ ("Bob" ≠ "<world>" → "Bob" ∈ g'.players) ∧
      g'.players.Sorted (· < ·) ∧
      ("Bob" ≠ "Alice" → lookupScore g'.kills "Bob" =
        lookupScore Game.init.kills "Bob")) :=
  ⟨by decide, by decide, by decide,
    c2_regular_kill (startNewGame QuakeLogParser.init) "game_1" Game.init
      "Alice" "Bob" "MOD_ROCKET" (by decide) (by decide) (by decide)⟩

/-- C2 counterexample: as frozen, the claim puts B into players even when
B is the sentinel (Bob kills world: world must not become a player), and in
the self-kill case it asserts no scores entry for B although the event
itself creates the entry of B (= A). -/
theorem c2_counterexample :
    "<world>" ∉ (applyKill Game.init ⟨"Bob", "<world>", "MOD_LAVA"⟩).players ∧
    lookupScore Game.init.kills "Alice" = none ∧
    lookupScore (applyKill Game.init ⟨"Alice", "Alice", "MOD_ROCKET"⟩).kills "Alice"
      = some 1 := by
  decide

/-- C3: a world kill on victim B ≠ world bumps total_kills by 1, decrements
scores[B] by 1 (creating the entry at 0 first, so a first penalty reads
-1), and records B as a player; moreover no match of any parse ever lists
the sentinel among its players. -/
theorem c3_world_kill :
    (∀ (st : QuakeLogParser) (gid : String) (g : Game) (B w : String),
      st.current_game_id = some gid → lookupGame st.games gid = some g →
      B ≠ "<world>" →
      ∃ g', lookupGame (processKillEvent st ⟨"<world>", B, w⟩).games gid = some g' ∧
        g'.total_kills = g.total_kills + 1 ∧
        lookupScore g'.kills B = some ((lookupScore g.kills B).getD 0 - 1) ∧
        B ∈ g'.players) ∧
    (∀ (lines : List String) (p : String × Game),
      p ∈ (parseLines lines).games → "<world>" ∉ p.2.players) := by
  constructor
  · intro st gid g B w hc hg hB
    rw [processKillEvent_eq st ⟨"<world>", B, w⟩ gid g hc hg]
    refine ⟨applyKill g ⟨"<world>", B, w⟩, lookupGame_setGame_self st.games gid _,
      applyKill_total_kills g _, ?_, ?_⟩
    · rw [applyKill_kills_world g _ rfl hB, lookupScore_dincr_self]
      congr 1
    · exact (mem_players_applyKill g _ B).mpr (Or.inr (victim_mem_evNames _ hB))
  · intro lines p hp
    have hP : GamesPred (fun g => "<world>" ∉ g.players) (parseLines lines) := by
      refine gamesPred_parseLines _ lines ?_ ?_
      · simp [Game.init]
      · intro g ev hg hmem
        rcases (mem_players_applyKill g ev "<world>").mp hmem with hmem | hmem
        · exact hg hmem
        · exact world_not_mem_evNames ev hmem
    exact hP p hp

/-- C3 witness: the world kills Bob in the first match; a one-kill log has
no sentinel in its players. -/
theorem c3_world_kill_witness :
    (startNewGame QuakeLogParser.init).current_game_id = some "game_1" ∧
    lookupGame (startNewGame QuakeLogParser.init).games "game_1" = some Game.init ∧
    "Bob" ≠ "<world>" ∧
    (∃ g', lookupGame (processKillEvent (startNewGame QuakeLogParser.init)
        ⟨"<world>", "Bob", "MOD_FALLING"⟩).games "game_1" = some g' ∧
      g'.total_kills = Game.init.total_kills + 1 ∧
      lookupScore g'.kills "Bob" =
        some ((lookupScore Game.init.kills "Bob").getD 0 - 1) ∧
      "Bob" ∈ g'.players) ∧
    ("game_1", applyKill Game.init ⟨"<world>", "Bob", "MOD_FALLING"⟩) ∈
      (parseLines ["0:10 Kill: 3 2 4: <world> killed Bob by MOD_FALLING"]).games ∧
    "<world>" ∉ (applyKill Game.init ⟨"<world>", "Bob", "MOD_FALLING"⟩).players :=
  ⟨by decide, by decide, by decide,
    c3_world_kill.1 (startNewGame QuakeLogParser.init) "game_1" Game.init
      "Bob" "MOD_FALLING" (by decide) (by decide) (by decide),
    by
      rw [parse_single_kill "0:10 Kill: 3 2 4: <world> killed Bob by MOD_FALLING"
        ⟨"<world>", "Bob", "MOD_FALLING"⟩ (by decide)]
      exact List.mem_singleton.mpr rfl,
    c3_world_kill.2 ["0:10 Kill: 3 2 4: <world> killed Bob by MOD_FALLING"]
      ("game_1", applyKill Game.init ⟨"<world>", "Bob", "MOD_FALLING"⟩)
      (by
        rw [parse_single_kill "0:10 Kill: 3 2 4: <world> killed Bob by MOD_FALLING"
          ⟨"<world>", "Bob", "MOD_FALLING"⟩ (by decide)]
        exact List.mem_singleton.mpr rfl)⟩

/-- C9: folding any permutation of a batch of kill events into a fresh
match yields the same players list — which is exactly the sorted,
deduplicated set of non-world names seen as killer or victim — and the
same scores entries (same keys, same values). -/
theorem c9_order_independent (evs evs' : List KillEvent) (hp : evs.Perm evs') :
    (foldKills Game.init evs).players = (foldKills Game.init evs').players ∧
    (foldKills Game.init evs).players = sortDedup (evs.flatMap evNames) ∧
    ∀ name, lookupScore (foldKills Game.init evs).kills name =
      lookupScore (foldKills Game.init evs').kills name := by
  have hpl : ∀ l : List KillEvent,
      (foldKills Game.init l).players = sortDedup (l.flatMap evNames) :=
    fun l => players_foldKills_aux l Game.init [] rfl
  refine ⟨?_, hpl evs, ?_⟩
  · rw [hpl evs, hpl evs']
    refine sortDedup_congr _ _ ?_
    intro x
    rw [List.mem_flatMap, List.mem_flatMap]
    exact ⟨fun ⟨a, ha, hx⟩ => ⟨a, hp.mem_iff.mp ha, hx⟩,
      fun ⟨a, ha, hx⟩ => ⟨a, hp.mem_iff.mpr ha, hx⟩⟩
  · intro name
    rw [lookupScore_foldKills, lookupScore_foldKills]
    have hln : lookupScore Game.init.kills name = none := rfl
    rw [hln]
    simp only [Option.isSome_none, Bool.or_false]
    rw [perm_any evs evs' hp (touchName name), (hp.map (killDelta name)).sum_eq]

/-- C9 witness: swapping a player kill and a world kill changes neither the
players list nor any score entry. -/
theorem c9_order_independent_witness :
    ([⟨"Alice", "Bob", "MOD_ROCKET"⟩, ⟨"<world>", "Bob", "MOD_FALLING"⟩] :
        List KillEvent).Perm
      [⟨"<world>", "Bob", "MOD_FALLING"⟩, ⟨"Alice", "Bob", "MOD_ROCKET"⟩] ∧
    (foldKills Game.init
        [⟨"Alice", "Bob", "MOD_ROCKET"⟩, ⟨"<world>", "Bob", "MOD_FALLING"⟩]).players =
      (foldKills Game.init
        [⟨"<world>", "Bob", "MOD_FALLING"⟩, ⟨"Alice", "Bob", "MOD_ROCKET"⟩]).players ∧
    (foldKills Game.init
        [⟨"Alice", "Bob", "MOD_ROCKET"⟩, ⟨"<world>", "Bob", "MOD_FALLING"⟩]).players =
      sortDedup (([⟨"Alice", "Bob", "MOD_ROCKET"⟩, ⟨"<world>", "Bob", "MOD_FALLING"⟩] :
        List KillEvent).flatMap evNames) ∧
    lookupScore (foldKills Game.init
        [⟨"Alice", "Bob", "MOD_ROCKET"⟩, ⟨"<world>", "Bob", "MOD_FALLING"⟩]).kills "Bob" =
      lookupScore (foldKills Game.init
        [⟨"<world>", "Bob", "MOD_FALLING"⟩, ⟨"Alice", "Bob", "MOD_ROCKET"⟩]).kills "Bob" := by
  have hperm : ([⟨"Alice", "Bob", "MOD_ROCKET"⟩, ⟨"<world>", "Bob", "MOD_FALLING"⟩] :
      List KillEvent).Perm
      [⟨"<world>", "Bob", "MOD_FALLING"⟩, ⟨"Alice", "Bob", "MOD_ROCKET"⟩] :=
    List.Perm.swap _ _ _
  have h := c9_order_independent _ _ hperm
  exact ⟨hperm, h.1, h.2.1, h.2.2 "Bob"⟩

/-- C10: after any parse, every name with a kills entry in some match is
also listed among that match's players. -/
theorem c10_scores_subset_players (lines : List String) (p : String × Game)
    (name : String) (hp : p ∈ (parseLines lines).games)
    (h : (lookupScore p.2.kills name).isSome = true) : name ∈ p.2.players := by
  have hP : GamesPred
      (fun g => ∀ n, (lookupScore g.kills n).isSome = true → n ∈ g.players)
      (parseLines lines) := by
    refine gamesPred_parseLines _ lines ?_ ?_
    · intro n hn
      simp [Game.init, lookupScore] at hn
    · intro g ev hg n hn
      rcases applyKill_kills_keys g ev n hn with hn' | hn'
      · exact (mem_players_applyKill g ev n).mpr (Or.inl (hg n hn'))
      · exact (mem_players_applyKill g ev n).mpr (Or.inr hn')
  exact hP p hp name h

/-- C10 witness: Alice scores in the one-kill log and is a player there. -/
theorem c10_scores_subset_players_witness :
    ("game_1", applyKill Game.init ⟨"Alice", "Bob", "MOD_ROCKET"⟩) ∈
      (parseLines ["0:05 Kill: 1 2 3: Alice killed Bob by MOD_ROCKET"]).games ∧
    (lookupScore (applyKill Game.init ⟨"Alice", "Bob", "MOD_ROCKET"⟩).kills
      "Alice").isSome = true ∧
    "Alice" ∈ (applyKill Game.init ⟨"Alice", "Bob", "MOD_ROCKET"⟩).players :=
  ⟨by
    rw [parse_single_kill "0:05 Kill: 1 2 3: Alice killed Bob by MOD_ROCKET"
      ⟨"Alice", "Bob", "MOD_ROCKET"⟩ (by decide)]
    exact List.mem_singleton.mpr rfl,
   by decide,
    c10_scores_subset_players ["0:05 Kill: 1 2 3: Alice killed Bob by MOD_ROCKET"]
      ("game_1", applyKill Game.init ⟨"Alice", "Bob", "MOD_ROCKET"⟩) "Alice"
      (by
        rw [parse_single_kill "0:05 Kill: 1 2 3: Alice killed Bob by MOD_ROCKET"
          ⟨"Alice", "Bob", "MOD_ROCKET"⟩ (by decide)]
        exact List.mem_singleton.mpr rfl)
      (by decide)⟩
